import Mathlib

/-!
Verification of the translation-converter tool (`translation_converter.py`).

The program is shallowly embedded over `Str := List Char`: Python string
operations (`str.replace`, `str.strip`, `str.lower`, `in`) are defined as
executable Lean functions with Python's semantics, the JSON string table is
an association list preserving insertion order (as Python dicts do), and the
three regex substitutions of `remove_slots` are embedded as deterministic
matching functions (the patterns involved — `[^>]*`, `[^<]*`, a literal, a
non-greedy `.*?` up to a literal — have deterministic leftmost-match
semantics, which the functions implement directly).
-/

set_option maxRecDepth 8000

abbrev Str := List Char

/-- Python `str.strip()` whitespace for the inputs this tool sees. -/
def isPySpace (c : Char) : Bool :=
  c = ' ' || c = '\t' || c = '\n' || c = '\r' || c = Char.ofNat 11 || c = Char.ofNat 12

/-- Python `s.strip()`. -/
def pyStrip (s : Str) : Str :=
  ((s.dropWhile isPySpace).reverse.dropWhile isPySpace).reverse

/-- Python `s.lower()` (inputs are ASCII). -/
def pyLower (s : Str) : Str := s.map Char.toLower

/-- Python `pat in s` (substring test). -/
def pyIn (pat : Str) : Str → Bool
  | [] => pat.isEmpty
  | c :: rest => pat.isPrefixOf (c :: rest) || pyIn pat rest

/-- Python `s.replace(pat, repl)` for non-empty `pat`, with explicit fuel so
that the recursion is structural (the fuel `s.length` always suffices). -/
def pyReplaceF : Nat → Str → Str → Str → Str
  | 0, s, _, _ => s
  | _ + 1, [], _, _ => []
  | fuel + 1, c :: rest, pat, repl =>
    if !pat.isEmpty && pat.isPrefixOf (c :: rest) then
      repl ++ pyReplaceF fuel ((c :: rest).drop pat.length) pat repl
    else
      c :: pyReplaceF fuel rest pat repl

/-- Python `s.replace(pat, repl)` (non-overlapping, left to right). -/
def pyReplace (s pat repl : Str) : Str := pyReplaceF s.length s pat repl

/-- A JSON value of the flat `index.json` table: a string, or the `slotOrder`
array of slot-identifier strings (the only non-string value the tool meets). -/
inductive JVal where
  | vstr : Str → JVal
  | varr : List Str → JVal
deriving DecidableEq

/-- The string table: key/value pairs in insertion order, as a Python dict. -/
abbrev Table := List (Str × JVal)

def keysOf (d : Table) : List Str := d.map Prod.fst

/-- Python `d[k] = v`: overwrite in place when the key is present (Python
dicts have unique keys), append at the end otherwise. -/
def dictSet : Table → Str → JVal → Table
  | [], k, v => [(k, v)]
  | p :: rest, k, v => if p.1 = k then (k, v) :: rest else p :: dictSet rest k v

def nbspS : Str := ("&nbsp;").toList
def spS : Str := (" ").toList
def spanOpenS : Str := ("<span>").toList
def spanCloseS : Str := ("</span>").toList

/-- `value.replace('&nbsp;', ' ').replace('<span>', '').replace('</span>', '')`
(translation_converter.py line 57/66). -/
def normValue (v : Str) : Str :=
  pyReplace (pyReplace (pyReplace v nbspS spS) spanOpenS []) spanCloseS []

/-- `english_text.replace('<span>', '').replace('</span>', '')` (line 58/67):
the source text is NOT rewritten at `&nbsp;`. -/
def normEnglish (e : Str) : Str :=
  pyReplace (pyReplace e spanOpenS []) spanCloseS []

/-- Pass 1 of `find_matching_key` (lines 55-61): first key whose normalized
string value equals the normalized English text. -/
def pass1 (e : Str) : Table → Option Str
  | [] => none
  | (k, v) :: rest =>
    match v with
    | JVal.vstr s => if normValue s = normEnglish e then some k else pass1 e rest
    | JVal.varr _ => pass1 e rest

/-- Pass 2 of `find_matching_key` (lines 64-70): the case-insensitive retry. -/
def pass2 (e : Str) : Table → Option Str
  | [] => none
  | (k, v) :: rest =>
    match v with
    | JVal.vstr s =>
      if pyLower (normValue s) = pyLower (normEnglish e) then some k else pass2 e rest
    | JVal.varr _ => pass2 e rest

/-- The reserved placeholder phrases (line 51). -/
def placeholderL : List Str :=
  [("[video]").toList, ("enter copy").toList, ("content/copy en").toList]

/-- `find_matching_key(english_text, source_json)` (lines 45-73). -/
def find_matching_key (e0 : Str) (T : Table) : Option Str :=
  let e := pyStrip e0
  if e.isEmpty || placeholderL.contains (pyLower e) then none
  else
    match pass1 e T with
    | some k => some k
    | none => pass2 e T

/-- The row guard of `process_translations` (lines 84-92). -/
def validRow (r : Str × Str) : Bool :=
  !(pyStrip r.1).isEmpty && !(pyStrip r.2).isEmpty &&
    !(pyLower (pyStrip r.2) == ("nan").toList)

/-- The value stored for a matched row (lines 97-99): spaces become `&nbsp;`
exactly when the ORIGINAL value at the key contains `&nbsp;`. -/
def writeVal (T : Table) (k : Str) (t : Str) : Str :=
  match List.lookup k T with
  | some (JVal.vstr v) => if pyIn nbspS v then pyReplace t spS nbspS else t
  | _ => t

/-- What one spreadsheet row does (lines 84-101): `none` when the row is
skipped or unmatched (Python's `if key:` also skips an empty-string key),
otherwise the key written and the value stored. -/
def rowWrite (T : Table) (r : Str × Str) : Option (Str × Str) :=
  if validRow r then
    match find_matching_key r.1 T with
    | some k => if k = [] then none else some (k, writeVal T k (pyStrip r.2))
    | none => none
  else none

def rowKey (T : Table) (r : Str × Str) : Option Str := (rowWrite T r).map Prod.fst

/-- The table part of one loop iteration of `process_translations`. -/
def stepTab (T : Table) (acc : Table) (r : Str × Str) : Table :=
  match rowWrite T r with
  | some kv => dictSet acc kv.1 (JVal.vstr kv.2)
  | none => acc

/-- One loop iteration of `process_translations`, with the `updated_count`. -/
def stepT (T : Table) (acc : Table × Nat) (r : Str × Str) : Table × Nat :=
  match rowWrite T r with
  | some kv => (dictSet acc.1 kv.1 (JVal.vstr kv.2), acc.2 + 1)
  | none => acc

/-- `process_translations(df, source_json)` (lines 75-106): starts from a copy
of the table, processes the rows in order, and counts the updates it printed. -/
def process_translations (rows : List (Str × Str)) (T : Table) : Table × Nat :=
  rows.foldl (stepT T) (T, 0)

/-- The translation (already stripped) of the last row that writes key `k`,
under table `T`; later rows take precedence. -/
def lastT (T : Table) (k : Str) : List (Str × Str) → Option Str
  | [] => none
  | r :: rs =>
    match lastT T k rs with
    | some t => some t
    | none =>
      match rowKey T r with
      | some k2 => if k2 = k then some (pyStrip r.2) else none
      | none => none

/-- The list comprehension of `remove_slots_from_tagging` (line 185): drop
falsy entries and entries named in the removal list. -/
def filterSlotOrder (order : List Str) (slotIds : List Str) : List Str :=
  order.filter (fun slot => !slot.isEmpty && !slotIds.contains slot)

/-! ## The HTML slot filter (`remove_slots`, lines 133-153)

The three regexes are embedded as deterministic matchers. Each matcher tries
to match at the start of a string and returns the matched length:

* `<article[^>]*\bid="S"[^>]*>.*?</article>` (DOTALL): after `<article` both
  `[^>]*` pieces and the literal `id="S"` live before the FIRST `>`; the
  word boundary `\b` requires a non-word character before `id` (the character
  preceding the attribute region is the `e` of `<article`, a word character);
  the non-greedy `.*?` ends at the FIRST `</article>` after that `>`.
* `<style[^>]*>([^<]*#S[\s,{][^<]*)</style>`: after the first `>` the group
  is the maximal `<`-free run; it must contain `#S` followed by whitespace,
  a comma or an opening brace, and the text right after the run must begin
  with `</style>`.
* the same for `<noscript ...>...</noscript>`.

`re.sub` semantics: scan left to right, replace every non-overlapping
leftmost match with the empty string, resume after the match. -/

def isWordCh (c : Char) : Bool :=
  ('a' ≤ c && c ≤ 'z') || ('A' ≤ c && c ≤ 'Z') || ('0' ≤ c && c ≤ '9') || c = '_'

/-- The character class `[\s,{]` of the style/noscript patterns. -/
def isDelimCh (c : Char) : Bool :=
  c = ' ' || c = '\t' || c = '\n' || c = '\r' || c = Char.ofNat 11 || c = Char.ofNat 12 ||
    c = ',' || c = Char.ofNat 123

/-- Index of the first occurrence of character `c`. -/
def idxOfCh (c : Char) : Str → Option Nat
  | [] => none
  | d :: rest => if d = c then some 0 else (idxOfCh c rest).map Nat.succ

/-- Index of the first occurrence of the substring `pat`. -/
def idxOfStr (pat : Str) : Str → Option Nat
  | [] => if pat.isEmpty then some 0 else none
  | d :: rest =>
    if pat.isPrefixOf (d :: rest) then some 0 else (idxOfStr pat rest).map Nat.succ

/-- Occurrence of `pat` somewhere in the string such that the character just
before the occurrence is a non-word character (`\b` before a word character);
`prev` is the character preceding the scanned string. -/
def boundedOccFrom (pat : Str) (prev : Char) : Str → Bool
  | [] => false
  | c :: rest => (!isWordCh prev && pat.isPrefixOf (c :: rest)) || boundedOccFrom pat c rest

/-- Occurrence of `#S` immediately followed by `[\s,{]`. -/
def hasRef (S : Str) : Str → Bool
  | [] => false
  | c :: rest =>
    (('#' :: S).isPrefixOf (c :: rest) &&
      (match (c :: rest).drop (S.length + 1) with
       | d :: _ => isDelimCh d
       | [] => false)) || hasRef S rest

/-- The `id="S"` literal of the article pattern. -/
def idPat (S : Str) : Str := ("id=\"").toList ++ S ++ ("\"").toList

/-- Match of the article pattern at the start of `s`: the matched length. -/
def articleMH (S : Str) (s : Str) : Option Nat :=
  if ("<article").toList.isPrefixOf s then
    match idxOfCh '>' (s.drop 8) with
    | some p =>
      if boundedOccFrom (idPat S) 'e' ((s.drop 8).take p) then
        match idxOfStr (("</article>").toList) ((s.drop 8).drop (p + 1)) with
        | some q => some (8 + p + 1 + q + 10)
        | none => none
      else none
    | none => none
  else none

/-- Match of the style pattern at the start of `s`: the matched length. -/
def styleMH (S : Str) (s : Str) : Option Nat :=
  if ("<style").toList.isPrefixOf s then
    match idxOfCh '>' (s.drop 6) with
    | some p =>
      if hasRef S (((s.drop 6).drop (p + 1)).takeWhile (fun c => !(c = '<'))) &&
          ("</style>").toList.isPrefixOf
            (((s.drop 6).drop (p + 1)).dropWhile (fun c => !(c = '<'))) then
        some (6 + p + 1 +
          ((((s.drop 6).drop (p + 1)).takeWhile (fun c => !(c = '<')))).length + 8)
      else none
    | none => none
  else none

/-- Match of the noscript pattern at the start of `s`: the matched length. -/
def noscriptMH (S : Str) (s : Str) : Option Nat :=
  if ("<noscript").toList.isPrefixOf s then
    match idxOfCh '>' (s.drop 9) with
    | some p =>
      if hasRef S (((s.drop 9).drop (p + 1)).takeWhile (fun c => !(c = '<'))) &&
          ("</noscript>").toList.isPrefixOf
            (((s.drop 9).drop (p + 1)).dropWhile (fun c => !(c = '<'))) then
        some (9 + p + 1 +
          ((((s.drop 9).drop (p + 1)).takeWhile (fun c => !(c = '<')))).length + 11)
      else none
    | none => none
  else none

/-- `re.sub(pattern, '', s)` for a matcher `mh` giving the matched length at
a position (every real match here is non-empty; `max L 1` only guards the
recursion). Fueled so the recursion is structural. -/
def subAllF (mh : Str → Option Nat) : Nat → Str → Str
  | 0, s => s
  | _ + 1, [] => []
  | fuel + 1, c :: rest =>
    match mh (c :: rest) with
    | some L => subAllF mh fuel ((c :: rest).drop (max L 1))
    | none => c :: subAllF mh fuel rest

def subAll (mh : Str → Option Nat) (s : Str) : Str := subAllF mh s.length s

/-- `remove_slots(html_content, slot_ids)` (lines 133-153). -/
def remove_slots (html : Str) (slotIds : List Str) : Str :=
  if slotIds.isEmpty then html
  else
    slotIds.foldl
      (fun h sid => subAll (noscriptMH sid) (subAll (styleMH sid) (subAll (articleMH sid) h)))
      html

/-! ## The orchestrator (`main`, lines 260-416)

File inputs are modelled as `Option` contents (`none` = the file is missing);
the spreadsheet additionally as `Option (Option rows)` since `read_excel_file`
returns `None` on a parse error. The tagging manifest is modelled already
parsed (the quote/comma repair of the raw text is I/O glue outside the claims).
`main` first creates/clears the `exportCode` directory, then checks the
required inputs, then writes outputs in the order tagging, index,
translations, html; an empty image path aborts after index/tagging but before
the html write. -/

/-- The tagging manifest fields the tool touches. -/
structure TagMan where
  pfx : Option Str
  slotOrder : Option (List Str)
deriving DecidableEq

/-- The input files of a run. -/
structure Files where
  excel : Option (Option (List (Str × Str)))
  imagePath : Option Str
  sourceJson : Option Table
  sourceHtml : Option Str
  tagging : Option TagMan
  region : Option Str
  removeSlot : Option (List Str)
deriving DecidableEq

/-- The outputs a run wrote (`none` = the file was not produced), and whether
the export directory was cleared (it always is: cleanup precedes the checks). -/
structure RunOut where
  translationsOut : Option (Table × Nat)
  indexOut : Option Table
  taggingOut : Option TagMan
  htmlOut : Option Str
  cleared : Bool
deriving DecidableEq

def emptyOut : RunOut := ⟨none, none, none, none, true⟩

/-- `region.startswith(('SEA', 'AU'))` (line 379), case-sensitive. -/
def skipRegion (r : Str) : Bool :=
  ("SEA").toList.isPrefixOf r || ("AU").toList.isPrefixOf r

/-- The tagging update of `main` (lines 341-351): set the prefix, and filter
`slotOrder` only when there are slot ids to remove. -/
def updateTagging (tm : TagMan) (region : Str) (ids : List Str) : TagMan :=
  { pfx := some region,
    slotOrder :=
      match tm.slotOrder with
      | some a => some (if ids.isEmpty then a else filterSlotOrder a ids)
      | none => none }

/-- The `index.json` update of `main` (lines 363-369). -/
def filterIndex (T : Table) (ids : List Str) : Table :=
  if ids.isEmpty then T
  else if (List.lookup (("slotOrder").toList) T).isSome then
    T.map (fun p =>
      if p.1 = ("slotOrder").toList then
        (p.1, match p.2 with
              | JVal.varr a => JVal.varr (filterSlotOrder a ids)
              | v => v)
      else p)
  else T

/-- The run of `main` (lines 260-416) over the modelled inputs. -/
def mainRun (fs : Files) : RunOut :=
  match fs.excel with
  | none => emptyOut
  | some exdata =>
    match fs.imagePath with
    | none => emptyOut
    | some ip =>
      match fs.sourceJson with
      | none => emptyOut
      | some srcJson =>
        match fs.sourceHtml with
        | none => emptyOut
        | some html0 =>
          let slotIds := fs.removeSlot.getD []
          let html1 := if slotIds.isEmpty then html0 else remove_slots html0 slotIds
          let regionV := fs.region.map pyStrip
          let tagOut : Option TagMan :=
            match regionV, fs.tagging with
            | some r, some tm => if r.isEmpty then none else some (updateTagging tm r slotIds)
            | _, _ => none
          let idxOut : Option Table := some (filterIndex srcJson slotIds)
          let skip : Bool :=
            match regionV with
            | some r => !r.isEmpty && skipRegion r
            | none => false
          if (pyStrip ip).isEmpty then
            { translationsOut := none, indexOut := idxOut, taggingOut := tagOut,
              htmlOut := none, cleared := true }
          else
            { translationsOut :=
                if skip then none
                else
                  match exdata with
                  | some rows => some (process_translations rows srcJson)
                  | none => none,
              indexOut := idxOut, taggingOut := tagOut,
              htmlOut := some html1, cleared := true }

/-- The names of the files in `exportCode` after a run that started with the
files `pre` present: the cleanup (lines 277-281) removes every preexisting
file before anything else, so the final contents are exactly the outputs the
run wrote, in write order. -/
def exportAfter (fs : Files) (pre : List Str) : List Str :=
  let o := mainRun fs
  let cleanedAway := pre.filter (fun _ => false)
  cleanedAway ++
    (if o.taggingOut.isSome then [("tagging.json").toList] else []) ++
    (if o.indexOut.isSome then [("index.json").toList] else []) ++
    (if o.translationsOut.isSome then [("translations.json").toList] else []) ++
    (if o.htmlOut.isSome then [("index.html").toList] else [])

/-! ## Definitions modelled from the spec's words, for claim C1

The spec (4.1 pass 1) says BOTH the value and the source text are normalized
by replacing the non-breaking-space entity with a space and stripping span
markers, and the first key with equal normalized strings is returned. The
amended reading keeps the value-side normalization but only span-stripping
on the source text; `specExactMatch` renders that first-match contract with
its own normalizers, to be compared with `pass1` from the code. -/

def specNormValue (v : Str) : Str :=
  pyReplace (pyReplace (pyReplace v nbspS spS) spanOpenS []) spanCloseS []

def specNormSource (e : Str) : Str :=
  pyReplace (pyReplace e spanOpenS []) spanCloseS []

/-- First key of the table whose string value, normalized, equals the
normalized source text. -/
def specExactMatch (e : Str) (T : Table) : Option Str :=
  (T.find? (fun p =>
    match p.2 with
    | JVal.vstr v => specNormValue v == specNormSource e
    | JVal.varr _ => false)).map Prod.fst

/-! ## Helper lemmas: the Python string operations -/

theorem spS_eq : spS = [' '] := rfl

theorem pyReplaceF_congr (pat repl : Str) :
    ∀ (f1 f2 : Nat) (s : Str), s.length ≤ f1 → s.length ≤ f2 →
      pyReplaceF f1 s pat repl = pyReplaceF f2 s pat repl := by
  intro f1
  induction f1 with
  | zero =>
    intro f2 s h1 _
    have hs : s = [] := List.eq_nil_of_length_eq_zero (Nat.le_zero.mp h1)
    subst hs
    cases f2 <;> rfl
  | succ n ih =>
    intro f2 s h1 h2
    cases s with
    | nil => cases f2 <;> rfl
    | cons c rest =>
      cases f2 with
      | zero => simp at h2
      | succ m =>
        simp only [pyReplaceF]
        by_cases hp : (!pat.isEmpty && pat.isPrefixOf (c :: rest)) = true
        · rw [if_pos hp, if_pos hp]
          have hpat : 1 ≤ pat.length := by
            cases pat with
            | nil => simp at hp
            | cons _ _ => simp
          have hd : ((c :: rest).drop pat.length).length = (c :: rest).length - pat.length :=
            List.length_drop _ _
          have hl : (c :: rest).length = rest.length + 1 := rfl
          congr 1
          exact ih m _ (by omega) (by omega)
        · rw [if_neg hp, if_neg hp]
          have hl : (c :: rest).length = rest.length + 1 := rfl
          congr 1
          exact ih m rest (by omega) (by omega)

theorem pyReplace_cons (c : Char) (rest pat repl : Str) :
    pyReplace (c :: rest) pat repl =
      if !pat.isEmpty && pat.isPrefixOf (c :: rest) then
        repl ++ pyReplace ((c :: rest).drop pat.length) pat repl
      else c :: pyReplace rest pat repl := by
  show pyReplaceF (rest.length + 1) (c :: rest) pat repl = _
  simp only [pyReplaceF]
  by_cases hp : (!pat.isEmpty && pat.isPrefixOf (c :: rest)) = true
  · rw [if_pos hp, if_pos hp]
    have hpat : 1 ≤ pat.length := by
      cases pat with
      | nil => simp at hp
      | cons _ _ => simp
    have hd : ((c :: rest).drop pat.length).length = (c :: rest).length - pat.length :=
      List.length_drop _ _
    have hl : (c :: rest).length = rest.length + 1 := rfl
    congr 1
    exact pyReplaceF_congr pat repl _ _ _ (by omega) (le_refl _)
  · rw [if_neg hp, if_neg hp]
    rfl

theorem pyReplace_sp_cons (c : Char) (rest : Str) :
    pyReplace (c :: rest) spS nbspS =
      if c = ' ' then nbspS ++ pyReplace rest spS nbspS else c :: pyReplace rest spS nbspS := by
  rw [pyReplace_cons]
  by_cases hc : c = ' '
  · subst hc
    rw [if_pos, if_pos rfl]
    · simp [spS_eq]
    · simp [spS_eq, List.isPrefixOf]
  · rw [if_neg, if_neg hc]
    simp [spS_eq, List.isPrefixOf]
    intro h
    exact absurd h.symm hc

theorem pyIn_of_prefix {pat s : Str} (h : pat.isPrefixOf s = true) : pyIn pat s = true := by
  cases s with
  | nil =>
    cases pat with
    | nil => rfl
    | cons _ _ => simp [List.isPrefixOf] at h
  | cons c rest => simp [pyIn, h]

theorem pyIn_cons_of {pat : Str} (c : Char) {rest : Str} (h : pyIn pat rest = true) :
    pyIn pat (c :: rest) = true := by
  simp [pyIn, h]

theorem pyIn_nbsp_replace {t : Str} (h : ' ' ∈ t) :
    pyIn nbspS (pyReplace t spS nbspS) = true := by
  induction t with
  | nil => cases h
  | cons c rest ih =>
    rw [pyReplace_sp_cons]
    by_cases hc : c = ' '
    · rw [if_pos hc]
      exact pyIn_of_prefix (List.isPrefixOf_iff_prefix.mpr (List.prefix_append _ _))
    · rw [if_neg hc]
      have hr : ' ' ∈ rest := by
        rcases List.mem_cons.mp h with h1 | h1
        · exact absurd h1.symm hc
        · exact h1
      exact pyIn_cons_of c (ih hr)

theorem pyReplace_sp_of_not_mem {t : Str} (h : ' ' ∉ t) : pyReplace t spS nbspS = t := by
  induction t with
  | nil => rfl
  | cons c rest ih =>
    rw [pyReplace_sp_cons, if_neg, ih]
    · intro hm
      exact h (List.mem_cons_of_mem c hm)
    · intro hc
      exact h (hc ▸ List.mem_cons_self c rest)

/-! ## Helper lemmas: the dictionary -/

theorem lookup_dictSet (d : Table) (k : Str) (v : JVal) (k2 : Str) :
    List.lookup k2 (dictSet d k v) = if k2 = k then some v else List.lookup k2 d := by
  induction d with
  | nil =>
    by_cases h : k2 = k
    · simp [dictSet, List.lookup, h]
    · have hb : (k2 == k) = false := beq_false_of_ne h
      simp [dictSet, List.lookup, hb, h]
  | cons p rest ih =>
    simp only [dictSet]
    by_cases hp : p.1 = k
    · rw [if_pos hp]
      by_cases h : k2 = k
      · simp [List.lookup, h]
      · have : (k2 == k) = false := beq_false_of_ne h
        have h2 : (k2 == p.1) = false := beq_false_of_ne (by rw [hp]; exact h)
        cases p with
        | mk pk pv =>
          simp only at hp
          subst hp
          simp [List.lookup, this, h]
    · rw [if_neg hp]
      cases p with
      | mk pk pv =>
        simp only at hp
        by_cases h2 : k2 = pk
        · subst h2
          have : k2 ≠ k := hp
          simp [List.lookup, this]
        · have hb : (k2 == pk) = false := beq_false_of_ne h2
          simp [List.lookup, hb, ih]

theorem keysOf_dictSet_of_mem (d : Table) (k : Str) (v : JVal) (h : k ∈ keysOf d) :
    keysOf (dictSet d k v) = keysOf d := by
  induction d with
  | nil => cases h
  | cons p rest ih =>
    simp only [dictSet]
    by_cases hp : p.1 = k
    · rw [if_pos hp]
      simp [keysOf, hp]
    · rw [if_neg hp]
      have hr : k ∈ keysOf rest := by
        rcases List.mem_cons.mp h with h1 | h1
        · exact absurd h1.symm hp
        · exact h1
      simp only [keysOf, List.map_cons]
      have hik := ih hr
      simp only [keysOf] at hik
      rw [hik]

theorem lookup_eq_none_of_not_mem {d : Table} {k : Str} (h : k ∉ keysOf d) :
    List.lookup k d = none := by
  induction d with
  | nil => rfl
  | cons p rest ih =>
    have h1 : k ≠ p.1 := fun he => h (he ▸ List.mem_cons_self p.1 (keysOf rest))
    have h2 : k ∉ keysOf rest := fun hm => h (List.mem_cons_of_mem _ hm)
    cases p with
    | mk pk pv =>
      simp only [keysOf] at h1
      simp [List.lookup, beq_false_of_ne h1, ih h2]

theorem mem_of_lookup_eq_some {d : Table} {k : Str} {v : JVal}
    (h : List.lookup k d = some v) : (k, v) ∈ d := by
  induction d with
  | nil => simp [List.lookup] at h
  | cons p rest ih =>
    cases p with
    | mk pk pv =>
      by_cases he : k = pk
      · subst he
        simp [List.lookup] at h
        subst h
        exact List.mem_cons_self _ _
      · simp [List.lookup, beq_false_of_ne he] at h
        exact List.mem_cons_of_mem _ (ih h)

theorem tableExt : ∀ (d1 d2 : Table), keysOf d1 = keysOf d2 → (keysOf d1).Nodup →
    (∀ k, List.lookup k d1 = List.lookup k d2) → d1 = d2 := by
  intro d1
  induction d1 with
  | nil =>
    intro d2 hk _ _
    cases d2 with
    | nil => rfl
    | cons q t2 => simp [keysOf] at hk
  | cons p t1 ih =>
    intro d2 hk hnd hl
    cases d2 with
    | nil => simp [keysOf] at hk
    | cons q t2 =>
      cases p with
      | mk pk pv =>
        cases q with
        | mk qk qv =>
          simp only [keysOf, List.map_cons, List.cons.injEq] at hk
          obtain ⟨hkk, hkt⟩ := hk
          subst hkk
          have hv : pv = qv := by
            have := hl pk
            simp [List.lookup] at this
            exact this
          subst hv
          have hnd1 : pk ∉ keysOf t1 := by
            simp only [keysOf, List.map_cons, List.nodup_cons] at hnd
            exact hnd.1
          have hkt2 : keysOf t1 = keysOf t2 := hkt
          have hnd2 : pk ∉ keysOf t2 := by rw [← hkt2]; exact hnd1
          have htail : ∀ k, List.lookup k t1 = List.lookup k t2 := by
            intro k
            by_cases he : k = pk
            · subst he
              rw [lookup_eq_none_of_not_mem hnd1, lookup_eq_none_of_not_mem hnd2]
            · have := hl k
              simp [List.lookup, beq_false_of_ne he] at this
              exact this
          have hndt : (keysOf t1).Nodup := by
            simp only [keysOf, List.map_cons, List.nodup_cons] at hnd
            exact hnd.2
          rw [ih t2 hkt2 hndt htail]

/-! ## Helper lemmas: the matcher -/

theorem mem_keysOf_of_mem {d : Table} {k : Str} {v : JVal} (h : (k, v) ∈ d) :
    k ∈ keysOf d :=
  List.mem_map_of_mem Prod.fst h

theorem lookup_of_mem_nodup {d : Table} {k : Str} {v : JVal} (h : (k, v) ∈ d)
    (hnd : (keysOf d).Nodup) : List.lookup k d = some v := by
  induction d with
  | nil => cases h
  | cons p rest ih =>
    cases p with
    | mk pk pv =>
      simp only [keysOf, List.map_cons, List.nodup_cons] at hnd
      rcases List.mem_cons.mp h with h1 | h1
      · injection h1 with hk hv
        subst hk; subst hv
        simp [List.lookup]
      · have hne : k ≠ pk := by
          intro he
          subst he
          exact hnd.1 (mem_keysOf_of_mem h1)
        simp [List.lookup, beq_false_of_ne hne]
        exact ih h1 hnd.2

theorem pass1_mem {e : Str} :
    ∀ {T : Table} {k : Str}, pass1 e T = some k →
      ∃ v, (k, JVal.vstr v) ∈ T ∧ normValue v = normEnglish e := by
  intro T
  induction T with
  | nil => intro k h; simp [pass1] at h
  | cons p rest ih =>
    intro k h
    cases p with
    | mk pk pv =>
      cases pv with
      | vstr s =>
        by_cases hm : normValue s = normEnglish e
        · simp only [pass1, if_pos hm, Option.some.injEq] at h
          subst h
          exact ⟨s, List.mem_cons_self _ _, hm⟩
        · simp only [pass1, if_neg hm] at h
          obtain ⟨v, hv, he⟩ := ih h
          exact ⟨v, List.mem_cons_of_mem _ hv, he⟩
      | varr a =>
        simp only [pass1] at h
        obtain ⟨v, hv, he⟩ := ih h
        exact ⟨v, List.mem_cons_of_mem _ hv, he⟩

theorem pass2_mem {e : Str} :
    ∀ {T : Table} {k : Str}, pass2 e T = some k →
      ∃ v, (k, JVal.vstr v) ∈ T ∧ pyLower (normValue v) = pyLower (normEnglish e) := by
  intro T
  induction T with
  | nil => intro k h; simp [pass2] at h
  | cons p rest ih =>
    intro k h
    cases p with
    | mk pk pv =>
      cases pv with
      | vstr s =>
        by_cases hm : pyLower (normValue s) = pyLower (normEnglish e)
        · simp only [pass2, if_pos hm, Option.some.injEq] at h
          subst h
          exact ⟨s, List.mem_cons_self _ _, hm⟩
        · simp only [pass2, if_neg hm] at h
          obtain ⟨v, hv, he⟩ := ih h
          exact ⟨v, List.mem_cons_of_mem _ hv, he⟩
      | varr a =>
        simp only [pass2] at h
        obtain ⟨v, hv, he⟩ := ih h
        exact ⟨v, List.mem_cons_of_mem _ hv, he⟩

theorem pass2_isSome_of_mem {e : Str} :
    ∀ {T : Table} {k : Str} {v : Str}, (k, JVal.vstr v) ∈ T →
      pyLower (normValue v) = pyLower (normEnglish e) → (pass2 e T).isSome := by
  intro T
  induction T with
  | nil => intro k v h _; cases h
  | cons p rest ih =>
    intro k v h hlow
    cases p with
    | mk pk pv =>
      rcases List.mem_cons.mp h with h1 | h1
      · injection h1 with h2 h3
        subst h2
        subst h3
        simp [pass2, hlow]
      · cases pv with
        | vstr s =>
          by_cases hm : pyLower (normValue s) = pyLower (normEnglish e)
          · simp [pass2, hm]
          · simp only [pass2, if_neg hm]
            exact ih h1 hlow
        | varr a =>
          simp only [pass2]
          exact ih h1 hlow

theorem find_some_inv {e0 : Str} {T : Table} {k : Str}
    (h : find_matching_key e0 T = some k) :
    ((pyStrip e0).isEmpty || placeholderL.contains (pyLower (pyStrip e0))) = false ∧
      (pass1 (pyStrip e0) T = some k ∨ pass2 (pyStrip e0) T = some k) := by
  unfold find_matching_key at h
  by_cases hg : ((pyStrip e0).isEmpty || placeholderL.contains (pyLower (pyStrip e0))) = true
  · rw [if_pos hg] at h
    cases h
  · rw [if_neg hg] at h
    refine ⟨Bool.not_eq_true _ ▸ hg, ?_⟩
    cases hp : pass1 (pyStrip e0) T with
    | some k2 =>
      rw [hp] at h
      injection h with h2
      subst h2
      exact Or.inl rfl
    | none =>
      rw [hp] at h
      exact Or.inr h

theorem find_lowEq {e0 : Str} {T : Table} {k : Str} (hnd : (keysOf T).Nodup)
    (h : find_matching_key e0 T = some k) :
    ∃ v, List.lookup k T = some (JVal.vstr v) ∧
      pyLower (normValue v) = pyLower (normEnglish (pyStrip e0)) := by
  obtain ⟨_, hcase⟩ := find_some_inv h
  rcases hcase with h1 | h1
  · obtain ⟨v, hv, he⟩ := pass1_mem h1
    exact ⟨v, lookup_of_mem_nodup hv hnd, by rw [he]⟩
  · obtain ⟨v, hv, he⟩ := pass2_mem h1
    exact ⟨v, lookup_of_mem_nodup hv hnd, he⟩

theorem find_isSome_of_match {e0 : Str} {T : Table} {k : Str} {v : Str}
    (hg : ((pyStrip e0).isEmpty || placeholderL.contains (pyLower (pyStrip e0))) = false)
    (hmem : (k, JVal.vstr v) ∈ T)
    (hlow : pyLower (normValue v) = pyLower (normEnglish (pyStrip e0))) :
    (find_matching_key e0 T).isSome := by
  unfold find_matching_key
  rw [if_neg (by rw [hg]; exact Bool.false_ne_true)]
  cases hp : pass1 (pyStrip e0) T with
  | some k2 => simp
  | none =>
    simp only
    exact pass2_isSome_of_mem hmem hlow

theorem find_mem_keys {e0 : Str} {T : Table} {k : Str}
    (h : find_matching_key e0 T = some k) : k ∈ keysOf T := by
  obtain ⟨_, hcase⟩ := find_some_inv h
  rcases hcase with h1 | h1
  · obtain ⟨v, hv, _⟩ := pass1_mem h1
    exact mem_keysOf_of_mem hv
  · obtain ⟨v, hv, _⟩ := pass2_mem h1
    exact mem_keysOf_of_mem hv

/-! ## Helper lemmas: the merge fold -/

theorem rowWrite_shape {T : Table} {r : Str × Str} {kv : Str × Str}
    (h : rowWrite T r = some kv) :
    validRow r = true ∧ find_matching_key r.1 T = some kv.1 ∧ kv.1 ≠ [] ∧
      kv.2 = writeVal T kv.1 (pyStrip r.2) := by
  unfold rowWrite at h
  split at h
  · rename_i hv
    split at h
    · rename_i k hf
      split at h
      · cases h
      · rename_i hk
        injection h with h2
        subst h2
        exact ⟨hv, hf, hk, rfl⟩
    · cases h
  · cases h

theorem process_fst (T : Table) :
    ∀ (rows : List (Str × Str)) (acc : Table) (n : Nat),
      (rows.foldl (stepT T) (acc, n)).1 = rows.foldl (stepTab T) acc := by
  intro rows
  induction rows with
  | nil => intro acc n; rfl
  | cons r rs ih =>
    intro acc n
    show (rs.foldl (stepT T) (stepT T (acc, n) r)).1 = rs.foldl (stepTab T) (stepTab T acc r)
    unfold stepT stepTab
    cases hw : rowWrite T r with
    | some kv => exact ih _ _
    | none => exact ih _ _

theorem process_cnt (T : Table) :
    ∀ (rows : List (Str × Str)) (acc : Table) (n : Nat),
      (rows.foldl (stepT T) (acc, n)).2 =
        n + (rows.filter (fun r => (rowWrite T r).isSome)).length := by
  intro rows
  induction rows with
  | nil => intro acc n; simp
  | cons r rs ih =>
    intro acc n
    have hfold : List.foldl (stepT T) (acc, n) (r :: rs) =
        List.foldl (stepT T) (stepT T (acc, n) r) rs := rfl
    rw [hfold]
    cases hw : rowWrite T r with
    | some kv =>
      have hs : stepT T (acc, n) r = (dictSet acc kv.1 (JVal.vstr kv.2), n + 1) := by
        unfold stepT
        rw [hw]
      rw [hs, ih]
      simp [List.filter_cons, hw]
      omega
    | none =>
      have hs : stepT T (acc, n) r = (acc, n) := by
        unfold stepT
        rw [hw]
      rw [hs, ih]
      simp [List.filter_cons, hw]

theorem lookup_fold (T : Table) (k : Str) :
    ∀ (rows : List (Str × Str)) (acc : Table),
      List.lookup k (rows.foldl (stepTab T) acc) =
        match lastT T k rows with
        | some t => some (JVal.vstr (writeVal T k t))
        | none => List.lookup k acc := by
  intro rows
  induction rows with
  | nil => intro acc; rfl
  | cons r rs ih =>
    intro acc
    show List.lookup k (rs.foldl (stepTab T) (stepTab T acc r)) = _
    rw [ih]
    cases hl : lastT T k rs with
    | some t => simp [lastT, hl]
    | none =>
      simp only [lastT, hl]
      cases hw : rowWrite T r with
      | none =>
        have h1 : stepTab T acc r = acc := by
          unfold stepTab
          rw [hw]
        have h2 : rowKey T r = none := by
          unfold rowKey
          rw [hw]
          rfl
        rw [h1, h2]
      | some kv =>
        obtain ⟨_, _, _, hv⟩ := rowWrite_shape hw
        have h1 : stepTab T acc r = dictSet acc kv.1 (JVal.vstr kv.2) := by
          unfold stepTab
          rw [hw]
        have h2 : rowKey T r = some kv.1 := by
          unfold rowKey
          rw [hw]
          rfl
        rw [h1, h2, lookup_dictSet]
        show (if k = kv.1 then some (JVal.vstr kv.2) else List.lookup k acc) =
          match (if kv.1 = k then some (pyStrip r.2) else none : Option Str) with
          | some t => some (JVal.vstr (writeVal T k t))
          | none => List.lookup k acc
        by_cases he : kv.1 = k
        · rw [if_pos he, if_pos he.symm, hv, he]
        · rw [if_neg he, if_neg (fun hcontra => he hcontra.symm)]

theorem keysOf_fold (T : Table) :
    ∀ (rows : List (Str × Str)) (acc : Table),
      keysOf acc = keysOf T → keysOf (rows.foldl (stepTab T) acc) = keysOf T := by
  intro rows
  induction rows with
  | nil => intro acc h; exact h
  | cons r rs ih =>
    intro acc h
    show keysOf (rs.foldl (stepTab T) (stepTab T acc r)) = keysOf T
    apply ih
    unfold stepTab
    cases hw : rowWrite T r with
    | none => exact h
    | some kv =>
      obtain ⟨_, hf, _, _⟩ := rowWrite_shape hw
      have hkm : kv.1 ∈ keysOf acc := by rw [h]; exact find_mem_keys hf
      rw [keysOf_dictSet_of_mem _ _ _ hkm, h]

theorem lastT_isSome_of_write {T1 : Table} {k : Str} :
    ∀ {rs : List (Str × Str)} {r : Str × Str}, r ∈ rs → rowKey T1 r = some k →
      (lastT T1 k rs).isSome := by
  intro rs
  induction rs with
  | nil => intro r h; cases h
  | cons r0 rest ih =>
    intro r hmem hk
    simp only [lastT]
    cases hl : lastT T1 k rest with
    | some t => simp
    | none =>
      rcases List.mem_cons.mp hmem with h1 | h1
      · subst h1
        rw [hk]
        simp
      · have := ih h1 hk
        rw [hl] at this
        simp at this

theorem lastT_some_inv {T : Table} {k : Str} :
    ∀ {rs : List (Str × Str)} {t : Str}, lastT T k rs = some t →
      ∃ r ∈ rs, rowKey T r = some k ∧ t = pyStrip r.2 := by
  intro rs
  induction rs with
  | nil => intro t h; cases h
  | cons r0 rest ih =>
    intro t h
    simp only [lastT] at h
    cases hl : lastT T k rest with
    | some t2 =>
      rw [hl] at h
      have h2 : some t2 = some t := h
      injection h2 with h3
      subst h3
      obtain ⟨r, hr, hk, ht⟩ := ih hl
      exact ⟨r, List.mem_cons_of_mem _ hr, hk, ht⟩
    | none =>
      rw [hl] at h
      cases hrk : rowKey T r0 with
      | none =>
        rw [hrk] at h
        exact absurd h (by simp)
      | some k2 =>
        rw [hrk] at h
        have h2 : (if k2 = k then some (pyStrip r0.2) else none) = some t := h
        by_cases he : k2 = k
        · rw [if_pos he] at h2
          injection h2 with h3
          exact ⟨r0, List.mem_cons_self _ _, he ▸ hrk, h3.symm⟩
        · rw [if_neg he] at h2
          cases h2

/-! ## Helper lemmas: idempotence of the merge -/

theorem rowKey_some_inv {T : Table} {r : Str × Str} {k : Str} (h : rowKey T r = some k) :
    validRow r = true ∧ find_matching_key r.1 T = some k ∧ k ≠ [] := by
  unfold rowKey at h
  cases hw : rowWrite T r with
  | none =>
    rw [hw] at h
    cases h
  | some kv =>
    rw [hw] at h
    have h2 : some kv.1 = some k := h
    injection h2 with h3
    obtain ⟨hv, hf, hk, _⟩ := rowWrite_shape hw
    exact ⟨hv, h3 ▸ hf, h3 ▸ hk⟩

theorem rowKey_eq_of_find_eq {T1 T : Table} {r : Str × Str}
    (hfe : find_matching_key r.1 T1 = find_matching_key r.1 T) :
    rowKey T1 r = rowKey T r := by
  unfold rowKey rowWrite
  rw [hfe]
  by_cases hv : validRow r = true
  · rw [if_pos hv, if_pos hv]
    cases hf : find_matching_key r.1 T with
    | none => rfl
    | some k =>
      show Option.map Prod.fst
          (if k = [] then none else some (k, writeVal T1 k (pyStrip r.2))) =
        Option.map Prod.fst
          (if k = [] then none else some (k, writeVal T k (pyStrip r.2)))
      by_cases hk : k = []
      · rw [if_pos hk, if_pos hk]
      · rw [if_neg hk, if_neg hk]
        rfl
  · rw [if_neg hv, if_neg hv]

theorem writeVal_unfold {T : Table} {k : Str} {t v : Str}
    (hv : List.lookup k T = some (JVal.vstr v)) :
    writeVal T k t = if pyIn nbspS v then pyReplace t spS nbspS else t := by
  unfold writeVal
  rw [hv]

theorem writeVal_stable {T T1 : Table} {k : Str} {t v : Str}
    (hv : List.lookup k T = some (JVal.vstr v))
    (hT1 : List.lookup k T1 = some (JVal.vstr (writeVal T k t)))
    (ht : pyIn nbspS t = false) :
    writeVal T1 k t = writeVal T k t := by
  have hTk : writeVal T k t = if pyIn nbspS v then pyReplace t spS nbspS else t :=
    writeVal_unfold hv
  have hT1k : writeVal T1 k t =
      if pyIn nbspS (writeVal T k t) then pyReplace t spS nbspS else t :=
    writeVal_unfold hT1
  by_cases hin : pyIn nbspS v = true
  · have hTk2 : writeVal T k t = pyReplace t spS nbspS := by rw [hTk, if_pos hin]
    by_cases hsp : ' ' ∈ t
    · have hnb : pyIn nbspS (writeVal T k t) = true := by
        rw [hTk2]
        exact pyIn_nbsp_replace hsp
      rw [hT1k, if_pos hnb, hTk2]
    · have hre : pyReplace t spS nbspS = t := pyReplace_sp_of_not_mem hsp
      have hw : writeVal T k t = t := by rw [hTk2, hre]
      have hnb : ¬ pyIn nbspS (writeVal T k t) = true := by
        rw [hw, ht]
        exact Bool.false_ne_true
      rw [hT1k, if_neg hnb, hw]
  · have hTk2 : writeVal T k t = t := by rw [hTk, if_neg hin]
    have hnb : ¬ pyIn nbspS (writeVal T k t) = true := by
      rw [hTk2, ht]
      exact Bool.false_ne_true
    rw [hT1k, if_neg hnb, hTk2]

theorem lastT_par (T : Table) (rows : List (Str × Str))
    (hnd : (keysOf T).Nodup)
    (h2 : ∀ r ∈ rows,
      find_matching_key r.1 (rows.foldl (stepTab T) T) = none ∨
      find_matching_key r.1 (rows.foldl (stepTab T) T) = find_matching_key r.1 T) :
    ∀ rs, rs <:+ rows → ∀ k,
      lastT (rows.foldl (stepTab T) T) k rs = none ∨
      (∃ r ∈ rows, rowKey T r = some k ∧
        lastT (rows.foldl (stepTab T) T) k rs = some (pyStrip r.2) ∧
        lastT T k rs = some (pyStrip r.2)) := by
  have hkeys : keysOf (rows.foldl (stepTab T) T) = keysOf T := keysOf_fold T rows T rfl
  have hndT1 : (keysOf (rows.foldl (stepTab T) T)).Nodup := by rw [hkeys]; exact hnd
  intro rs
  induction rs with
  | nil =>
    intro _ k
    exact Or.inl rfl
  | cons r0 rest ih =>
    intro hsuf k
    have hsufr : rest <:+ rows := (List.suffix_cons r0 rest).trans hsuf
    have hmem0 : r0 ∈ rows := hsuf.subset (List.mem_cons_self _ _)
    rcases ih hsufr k with hnone | ⟨r, hrmem, hrk, he1, he2⟩
    · cases hrk0 : rowKey (rows.foldl (stepTab T) T) r0 with
      | none =>
        left
        simp only [lastT, hnone, hrk0]
      | some k2 =>
        by_cases hek : k2 = k
        · subst hek
          obtain ⟨hval0, hfT1some, hkne⟩ := rowKey_some_inv hrk0
          have hfe : find_matching_key r0.1 (rows.foldl (stepTab T) T) =
              find_matching_key r0.1 T := by
            rcases h2 r0 hmem0 with h | h
            · rw [h] at hfT1some
              cases hfT1some
            · exact h
          have hrkT : rowKey T r0 = some k2 := by
            rw [← rowKey_eq_of_find_eq hfe]
            exact hrk0
          have hfT : find_matching_key r0.1 T = some k2 := (rowKey_some_inv hrkT).2.1
          have hTrestnone : lastT T k2 rest = none := by
            cases hlr : lastT T k2 rest with
            | none => rfl
            | some tb =>
              exfalso
              obtain ⟨rb, hrbmem, hrbk, _⟩ := lastT_some_inv hlr
              obtain ⟨w, hlw, hloww⟩ := find_lowEq hndT1 hfT1some
              obtain ⟨v, hlv, hlowv⟩ := find_lowEq hnd hfT
              have hfTb : find_matching_key rb.1 T = some k2 := (rowKey_some_inv hrbk).2.1
              obtain ⟨v2, hlv2, hlowv2⟩ := find_lowEq hnd hfTb
              have hvv : v2 = v := by
                rw [hlv] at hlv2
                injection hlv2 with h3
                injection h3 with h4
                exact h4.symm
              obtain ⟨hgb, _⟩ := find_some_inv hfTb
              have hchain : pyLower (normValue w) = pyLower (normEnglish (pyStrip rb.1)) := by
                rw [hloww, ← hlowv, ← hvv, hlowv2]
              have hsomeb : (find_matching_key rb.1 (rows.foldl (stepTab T) T)).isSome :=
                find_isSome_of_match hgb (mem_of_lookup_eq_some hlw) hchain
              have hmemb : rb ∈ rows := hsufr.subset hrbmem
              rcases h2 rb hmemb with hb | hb
              · rw [hb] at hsomeb
                cases hsomeb
              · have hwb : rowKey (rows.foldl (stepTab T) T) rb = some k2 := by
                  rw [rowKey_eq_of_find_eq hb]
                  exact hrbk
                have := lastT_isSome_of_write hrbmem hwb
                rw [hnone] at this
                cases this
          right
          refine ⟨r0, hmem0, hrkT, ?_, ?_⟩
          · simp [lastT, hnone, hrk0]
          · simp [lastT, hTrestnone, hrkT]
        · left
          simp only [lastT, hnone, hrk0, if_neg hek]
    · right
      refine ⟨r, hrmem, hrk, ?_, ?_⟩
      · simp only [lastT, he1]
      · simp only [lastT, he2]

theorem fold_idempotent (T : Table) (rows : List (Str × Str))
    (hnd : (keysOf T).Nodup)
    (h1 : ∀ r ∈ rows, pyIn nbspS (pyStrip r.2) = false)
    (h2 : ∀ r ∈ rows,
      find_matching_key r.1 (rows.foldl (stepTab T) T) = none ∨
      find_matching_key r.1 (rows.foldl (stepTab T) T) = find_matching_key r.1 T) :
    rows.foldl (stepTab (rows.foldl (stepTab T) T)) (rows.foldl (stepTab T) T) =
      rows.foldl (stepTab T) T := by
  have hkeys : keysOf (rows.foldl (stepTab T) T) = keysOf T := keysOf_fold T rows T rfl
  have hndT1 : (keysOf (rows.foldl (stepTab T) T)).Nodup := by
    rw [hkeys]
    exact hnd
  apply tableExt
  · exact keysOf_fold (rows.foldl (stepTab T) T) rows (rows.foldl (stepTab T) T) rfl
  · rw [keysOf_fold (rows.foldl (stepTab T) T) rows (rows.foldl (stepTab T) T) rfl]
    exact hndT1
  · intro k
    rw [lookup_fold (rows.foldl (stepTab T) T) k rows (rows.foldl (stepTab T) T)]
    rcases lastT_par T rows hnd h2 rows (List.suffix_refl rows) k with
      hnone | ⟨r, hrmem, hrkT, he1, he2⟩
    · rw [hnone]
    · rw [he1]
      have hfT : find_matching_key r.1 T = some k := (rowKey_some_inv hrkT).2.1
      obtain ⟨v, hlv, _⟩ := find_lowEq hnd hfT
      have hlookT1 : List.lookup k (rows.foldl (stepTab T) T) =
          some (JVal.vstr (writeVal T k (pyStrip r.2))) := by
        rw [lookup_fold T k rows T, he2]
      show some (JVal.vstr (writeVal (rows.foldl (stepTab T) T) k (pyStrip r.2))) = _
      rw [writeVal_stable hlv hlookT1 (h1 r hrmem), hlookT1]

/-- C2 (corrected): `merge` is not idempotent unconditionally (see
`claim2_counterexample`, where the `&nbsp;` substitution is applied twice).
It is idempotent provided the table's keys are distinct, no row's translated
text contains the `&nbsp;` entity, and every row whose source text still
resolves to a key against the merged table resolves to the same key it
resolved to against the original table: then running `merge` a second time
with the same rows on the table produced by the first run yields exactly the
same table. -/
theorem claim2_merge_idempotent (T : Table) (rows : List (Str × Str))
    (hnd : (keysOf T).Nodup)
    (h1 : ∀ r ∈ rows, pyIn nbspS (pyStrip r.2) = false)
    (h2 : ∀ r ∈ rows,
      find_matching_key r.1 (process_translations rows T).1 = none ∨
      find_matching_key r.1 (process_translations rows T).1 = find_matching_key r.1 T) :
    (process_translations rows (process_translations rows T).1).1 =
      (process_translations rows T).1 := by
  have hp : (process_translations rows T).1 = rows.foldl (stepTab T) T :=
    process_fst T rows T 0
  rw [hp] at h2 ⊢
  have hq : (process_translations rows (rows.foldl (stepTab T) T)).1 =
      rows.foldl (stepTab (rows.foldl (stepTab T) T)) (rows.foldl (stepTab T) T) :=
    process_fst _ rows _ 0
  rw [hq]
  exact fold_idempotent T rows hnd h1 h2

/-- C2 witness: the amended idempotence at a concrete table and row set
(the typical run: the stored French translation no longer matches the
English source text, so a second merge changes nothing). -/
theorem claim2_witness :
    (keysOf [((("greet").toList), JVal.vstr (("Hi&nbsp;there").toList))]).Nodup ∧
    (process_translations [((("Hi there").toList), (("Bonjour").toList))]
        (process_translations [((("Hi there").toList), (("Bonjour").toList))]
          [((("greet").toList), JVal.vstr (("Hi&nbsp;there").toList))]).1).1 =
      (process_translations [((("Hi there").toList), (("Bonjour").toList))]
        [((("greet").toList), JVal.vstr (("Hi&nbsp;there").toList))]).1 := by
  constructor
  · decide
  · exact claim2_merge_idempotent _ _ (by decide) (by decide) (by decide)

/-- C2 counterexample: with table `{a: "A B C"}` and the single row
`("A B C", "A B&nbsp;C")`, the first merge stores `"A B&nbsp;C"` verbatim
(the original value has no `&nbsp;`), and the second merge re-matches the
stored value and rewrites its remaining space, producing `"A&nbsp;B&nbsp;C"`:
`merge` applied twice differs from `merge` applied once. -/
theorem claim2_counterexample :
    (process_translations [((("A B C").toList), (("A B&nbsp;C").toList))]
        (process_translations [((("A B C").toList), (("A B&nbsp;C").toList))]
          [((("a").toList), JVal.vstr (("A B C").toList))]).1).1 ≠
      (process_translations [((("A B C").toList), (("A B&nbsp;C").toList))]
        [((("a").toList), JVal.vstr (("A B C").toList))]).1 := by decide

/-- C3: a table entry whose key is never resolved by any row's match keeps
exactly its original value in the merged table (untouched keys pass through
unchanged). -/
theorem claim3_untouched_keys (T : Table) (rows : List (Str × Str)) (k : Str)
    (h : ∀ r ∈ rows, find_matching_key r.1 T ≠ some k) :
    List.lookup k (process_translations rows T).1 = List.lookup k T := by
  have hp : (process_translations rows T).1 = rows.foldl (stepTab T) T :=
    process_fst T rows T 0
  rw [hp, lookup_fold T k rows T]
  cases hl : lastT T k rows with
  | none => rfl
  | some t =>
    exfalso
    obtain ⟨r, hrmem, hrk, _⟩ := lastT_some_inv hl
    exact h r hrmem (rowKey_some_inv hrk).2.1

/-- C3 witness: a row whose source text matches nothing leaves the key `a`
with its original value. -/
theorem claim3_witness :
    (∀ r ∈ [((("Nope").toList), (("X").toList))],
      find_matching_key r.1 [((("a").toList), JVal.vstr (("Hello").toList))] ≠
        some (("a").toList)) ∧
    List.lookup (("a").toList)
        (process_translations [((("Nope").toList), (("X").toList))]
          [((("a").toList), JVal.vstr (("Hello").toList))]).1 =
      List.lookup (("a").toList) [((("a").toList), JVal.vstr (("Hello").toList))] :=
  ⟨by decide, claim3_untouched_keys _ _ _ (by decide)⟩

/-- C4: for a row (processed last) whose source text resolves to key `k`, the
value stored at `k` is the trimmed translated text with every literal space
replaced by `&nbsp;` exactly when the ORIGINAL value at `k` contains the
substring `&nbsp;`, and the trimmed translated text verbatim otherwise. -/
theorem claim4_nbsp_convention (T : Table) (rows : List (Str × Str))
    (r : Str × Str) (k : Str)
    (hv : validRow r = true)
    (hk : find_matching_key r.1 T = some k)
    (hne : k ≠ []) :
    List.lookup k (process_translations (rows ++ [r]) T).1 =
      some (JVal.vstr
        (match List.lookup k T with
         | some (JVal.vstr v) =>
           if pyIn nbspS v then pyReplace (pyStrip r.2) spS nbspS else pyStrip r.2
         | _ => pyStrip r.2)) := by
  have hp : (process_translations (rows ++ [r]) T).1 =
      (rows ++ [r]).foldl (stepTab T) T :=
    process_fst T (rows ++ [r]) T 0
  rw [hp, List.foldl_append]
  show List.lookup k (stepTab T (rows.foldl (stepTab T) T) r) = _
  have hw : rowWrite T r = some (k, writeVal T k (pyStrip r.2)) := by
    unfold rowWrite
    rw [if_pos hv, hk]
    show (if k = [] then none else some (k, writeVal T k (pyStrip r.2))) = _
    rw [if_neg hne]
  have h1 : stepTab T (rows.foldl (stepTab T) T) r =
      dictSet (rows.foldl (stepTab T) T) k (JVal.vstr (writeVal T k (pyStrip r.2))) := by
    unfold stepTab
    rw [hw]
  rw [h1, lookup_dictSet, if_pos rfl]
  rfl

/-- C4 witness: the original value `"Hi&nbsp;there"` carries the entity, so
the stored translation has every space re-encoded as `&nbsp;`. -/
theorem claim4_witness :
    validRow ((("Hi there").toList), (("Bonjour le monde").toList)) = true ∧
    find_matching_key (("Hi there").toList)
        [((("greet").toList), JVal.vstr (("Hi&nbsp;there").toList))] =
      some (("greet").toList) ∧
    List.lookup (("greet").toList)
        (process_translations
          ([] ++ [((("Hi there").toList), (("Bonjour le monde").toList))])
          [((("greet").toList), JVal.vstr (("Hi&nbsp;there").toList))]).1 =
      some (JVal.vstr (("Bonjour&nbsp;le&nbsp;monde").toList)) := by
  refine ⟨by decide, by decide, ?_⟩
  have h := claim4_nbsp_convention
    [((("greet").toList), JVal.vstr (("Hi&nbsp;there").toList))] []
    ((("Hi there").toList), (("Bonjour le monde").toList)) (("greet").toList)
    (by decide) (by decide) (by decide)
  rw [h]
  decide

/-- C8 counterexample: with table `{a: "Hello"}` and row `("Hello","Hello")`
the stored value equals the existing one, so no key actually changes, yet the
reported count is 1: the count is not the number of keys actually changed. -/
theorem claim8_counterexample :
    (process_translations [((("Hello").toList), (("Hello").toList))]
        [((("a").toList), JVal.vstr (("Hello").toList))]).2 = 1 ∧
    (process_translations [((("Hello").toList), (("Hello").toList))]
        [((("a").toList), JVal.vstr (("Hello").toList))]).1 =
      [((("a").toList), JVal.vstr (("Hello").toList))] := by decide

/-- C8 (corrected): the count `merge` reports is the number of rows that pass
the guards and whose source text resolves to a key — each stored row adds
one, even when the stored value equals the existing one and even when several
rows resolve to the same key — not the number of keys whose value changed. -/
theorem claim8_count (T : Table) (rows : List (Str × Str)) :
    (process_translations rows T).2 =
      (rows.filter (fun r => (rowWrite T r).isSome)).length := by
  have h := process_cnt T rows T 0
  rw [Nat.zero_add] at h
  exact h

/-- C1 counterexample: the exact pass does NOT replace `&nbsp;` in the source
text (only in the value), so the source text `"Hi&nbsp;there"` fails to match
the value `"Hi&nbsp;there"` — against the claim, which would give key `k`. -/
theorem claim1_counterexample :
    pass1 (("Hi&nbsp;there").toList)
        [((("k").toList), JVal.vstr (("Hi&nbsp;there").toList))] = none ∧
    find_matching_key (("Hi&nbsp;there").toList)
        [((("k").toList), JVal.vstr (("Hi&nbsp;there").toList))] = none := by decide

/-- C1 (corrected): in the exact pass only the VALUE is normalized by
replacing `&nbsp;` with a literal space (both sides are span-stripped), and
the pass returns the first key whose normalized value equals the span-stripped
source text: `pass1` coincides with `specExactMatch`, the first-match contract
over those asymmetric normalizers; in particular a source text with a literal
space matches a value carrying `&nbsp;` at that position (and not vice versa,
see the counterexample). -/
theorem claim1_exact_pass :
    (∀ (e : Str) (T : Table), pass1 e T = specExactMatch e T) ∧
    pass1 (("Hi there").toList)
        [((("greet").toList), JVal.vstr (("Hi&nbsp;there").toList))] =
      some (("greet").toList) := by
  constructor
  · intro e T
    induction T with
    | nil => rfl
    | cons p rest ih =>
      cases p with
      | mk pk pv =>
        cases pv with
        | vstr s =>
          by_cases hm : normValue s = normEnglish e
          · have hb : (specNormValue s == specNormSource e) = true := by
              rw [beq_iff_eq]
              exact hm
            simp only [pass1, if_pos hm, specExactMatch, List.find?_cons, hb]
            rfl
          · have hb : (specNormValue s == specNormSource e) = false := by
              rw [beq_eq_false_iff_ne]
              exact hm
            simp only [pass1, if_neg hm, specExactMatch, List.find?_cons, hb]
            exact ih
        | varr a =>
          simp only [pass1, specExactMatch, List.find?_cons]
          exact ih
  · decide

/-- C5: filterSlotOrder returns the input with exactly the empty entries and
the entries named in the removal list removed: the result is a sublist of the
input (relative order of survivors preserved), contains no empty string and
no removed identifier, survivor multiplicities are preserved, and the spec's
example evaluates as stated. -/
theorem claim5_filter_slot_order :
    (∀ (order ids : List Str), (filterSlotOrder order ids).Sublist order) ∧
    (∀ (order ids : List Str) (s : Str), s ∈ filterSlotOrder order ids →
      s ≠ [] ∧ s ∉ ids) ∧
    (∀ (order ids : List Str) (s : Str),
      List.count s (filterSlotOrder order ids) =
        if s = [] ∨ s ∈ ids then 0 else List.count s order) ∧
    filterSlotOrder [("a").toList, [], ("b").toList, ("c").toList] [("b").toList] =
      [("a").toList, ("c").toList] := by
  have hpred : ∀ (ids : List Str) (s : Str),
      (!s.isEmpty && !ids.contains s) = true ↔ s ≠ [] ∧ s ∉ ids := by
    intro ids s
    constructor
    · intro h
      obtain ⟨h1, h2⟩ := Bool.and_eq_true_iff.mp h
      rw [Bool.not_eq_true'] at h1 h2
      refine ⟨?_, ?_⟩
      · intro he
        subst he
        simp at h1
      · intro hm
        have hc : ids.contains s = true := List.elem_iff.mpr hm
        rw [h2] at hc
        cases hc
    · intro ⟨h1, h2⟩
      apply Bool.and_eq_true_iff.mpr
      refine ⟨?_, ?_⟩
      · rw [Bool.not_eq_true']
        cases s with
        | nil => exact absurd rfl h1
        | cons c cs => rfl
      · rw [Bool.not_eq_true']
        cases hc : ids.contains s with
        | false => rfl
        | true =>
          have hc2 : List.elem s ids = true := hc
          exact absurd (List.elem_iff.mp hc2) h2
  refine ⟨?_, ?_, ?_, by decide⟩
  · intro order ids
    exact List.filter_sublist order
  · intro order ids s hs
    unfold filterSlotOrder at hs
    have hq := @List.of_mem_filter Str (fun slot => !slot.isEmpty && !ids.contains slot)
      s order hs
    exact (hpred ids s).mp hq
  · intro order ids s
    unfold filterSlotOrder
    by_cases hc : s = [] ∨ s ∈ ids
    · rw [if_pos hc]
      apply List.count_eq_zero.mpr
      intro hmem
      have hq := @List.of_mem_filter Str (fun slot => !slot.isEmpty && !ids.contains slot)
        s order hmem
      have hps := (hpred ids s).mp hq
      rcases hc with h | h
      · exact hps.1 h
      · exact hps.2 h
    · rw [if_neg hc]
      push_neg at hc
      exact List.count_filter ((hpred ids s).mpr ⟨hc.1, hc.2⟩)

/-! ## Helper lemmas: the HTML matchers -/

theorem idxOfCh_split {c : Char} :
    ∀ {s : Str} {p : Nat}, idxOfCh c s = some p →
      ∃ a b, s = a ++ c :: b ∧ a.length = p ∧ c ∉ a := by
  intro s
  induction s with
  | nil => intro p h; cases h
  | cons d rest ih =>
    intro p h
    simp only [idxOfCh] at h
    by_cases hd : d = c
    · rw [if_pos hd] at h
      injection h with h2
      subst h2
      subst hd
      exact ⟨[], rest, rfl, rfl, by simp⟩
    · rw [if_neg hd] at h
      cases hr : idxOfCh c rest with
      | none =>
        rw [hr] at h
        cases h
      | some q =>
        rw [hr] at h
        have h2 : some (q + 1) = some p := h
        injection h2 with h3
        obtain ⟨a, b, hs, hl, hc⟩ := ih hr
        refine ⟨d :: a, b, by rw [hs]; rfl, by rw [List.length_cons, hl, h3], ?_⟩
        intro hm
        rcases List.mem_cons.mp hm with h4 | h4
        · exact hd h4.symm
        · exact hc h4

theorem idxOfStr_split {pat : Str} :
    ∀ {s : Str} {q : Nat}, idxOfStr pat s = some q →
      ∃ a b, s = a ++ pat ++ b ∧ a.length = q := by
  intro s
  induction s with
  | nil =>
    intro q h
    simp only [idxOfStr] at h
    by_cases hp : pat.isEmpty = true
    · rw [if_pos hp] at h
      injection h with h2
      subst h2
      have hpe : pat = [] := by
        cases pat with
        | nil => rfl
        | cons _ _ => cases hp
      exact ⟨[], [], by simp [hpe], rfl⟩
    · rw [if_neg hp] at h
      cases h
  | cons d rest ih =>
    intro q h
    simp only [idxOfStr] at h
    by_cases hd : pat.isPrefixOf (d :: rest) = true
    · rw [if_pos hd] at h
      injection h with h2
      subst h2
      obtain ⟨t, ht⟩ := List.isPrefixOf_iff_prefix.mp hd
      exact ⟨[], t, by rw [← ht]; rfl, rfl⟩
    · rw [if_neg hd] at h
      cases hr : idxOfStr pat rest with
      | none =>
        rw [hr] at h
        cases h
      | some q2 =>
        rw [hr] at h
        have h2 : some (q2 + 1) = some q := h
        injection h2 with h3
        obtain ⟨a, b, hs, hl⟩ := ih hr
        exact ⟨d :: a, b, by rw [hs]; rfl, by rw [List.length_cons, hl, h3]⟩

theorem articleMH_sound {S s : Str} {L : Nat} (h : articleMH S s = some L) :
    ∃ attrs mid b,
      s = ("<article").toList ++ attrs ++ '>' ::
            (mid ++ ("</article>").toList ++ b) ∧
      ('>' ∉ attrs) ∧
      boundedOccFrom (idPat S) 'e' attrs = true ∧
      L = 19 + attrs.length + mid.length := by
  unfold articleMH at h
  by_cases h0 : ("<article").toList.isPrefixOf s = true
  · rw [if_pos h0] at h
    obtain ⟨r, hr⟩ := List.isPrefixOf_iff_prefix.mp h0
    have h8 : ("<article").toList.length = 8 := rfl
    have hdrop : s.drop 8 = r := by
      rw [← hr, ← h8]
      exact List.drop_left _ _
    rw [hdrop] at h
    cases hp : idxOfCh '>' r with
    | none =>
      rw [hp] at h
      cases h
    | some p =>
      rw [hp] at h
      have h' : (if boundedOccFrom (idPat S) 'e' (r.take p) = true then
          (match idxOfStr (("</article>").toList) (r.drop (p + 1)) with
           | some q => some (8 + p + 1 + q + 10)
           | none => none)
        else none) = some L := h
      obtain ⟨attrs, rest0, hsplit, hlen, hnomem⟩ := idxOfCh_split hp
      have htake : r.take p = attrs := by
        rw [hsplit, ← hlen]
        exact List.take_left _ _
      have hdrop2 : r.drop (p + 1) = rest0 := by
        rw [hsplit]
        have hassoc : attrs ++ '>' :: rest0 = (attrs ++ ['>']) ++ rest0 := by simp
        have hl1 : (attrs ++ ['>']).length = p + 1 := by
          rw [List.length_append, hlen]
          rfl
        rw [hassoc, ← hl1]
        exact List.drop_left _ _
      rw [htake, hdrop2] at h'
      by_cases hb : boundedOccFrom (idPat S) 'e' attrs = true
      · rw [if_pos hb] at h'
        cases hq : idxOfStr (("</article>").toList) rest0 with
        | none =>
          rw [hq] at h'
          cases h'
        | some q =>
          rw [hq] at h'
          have h2 : some (8 + p + 1 + q + 10) = some L := h'
          injection h2 with h3
          obtain ⟨mid, b, hsplit2, hlen2⟩ := idxOfStr_split hq
          refine ⟨attrs, mid, b, ?_, hnomem, hb, ?_⟩
          · rw [← hr, hsplit, hsplit2]
            simp
          · omega
      · rw [if_neg hb] at h'
        cases h'
  · rw [if_neg h0] at h
    cases h

theorem styleMH_sound {S s : Str} {L : Nat} (h : styleMH S s = some L) :
    ∃ attrs run b,
      s = ("<style").toList ++ attrs ++ '>' :: (run ++ ("</style>").toList ++ b) ∧
      ('>' ∉ attrs) ∧
      (∀ c ∈ run, c ≠ '<') ∧
      hasRef S run = true ∧
      L = 15 + attrs.length + run.length := by
  unfold styleMH at h
  by_cases h0 : ("<style").toList.isPrefixOf s = true
  · rw [if_pos h0] at h
    obtain ⟨r, hr⟩ := List.isPrefixOf_iff_prefix.mp h0
    have h6 : ("<style").toList.length = 6 := rfl
    have hdrop : s.drop 6 = r := by
      rw [← hr, ← h6]
      exact List.drop_left _ _
    rw [hdrop] at h
    cases hp : idxOfCh '>' r with
    | none =>
      rw [hp] at h
      cases h
    | some p =>
      rw [hp] at h
      have h' : (if (hasRef S ((r.drop (p + 1)).takeWhile (fun c => !(c = '<'))) &&
            ("</style>").toList.isPrefixOf
              ((r.drop (p + 1)).dropWhile (fun c => !(c = '<')))) = true then
          some (6 + p + 1 +
            ((((r.drop (p + 1)).takeWhile (fun c => !(c = '<')))).length) + 8)
        else none) = some L := h
      obtain ⟨attrs, rest0, hsplit, hlen, hnomem⟩ := idxOfCh_split hp
      have hdrop2 : r.drop (p + 1) = rest0 := by
        rw [hsplit]
        have hassoc : attrs ++ '>' :: rest0 = (attrs ++ ['>']) ++ rest0 := by simp
        have hl1 : (attrs ++ ['>']).length = p + 1 := by
          rw [List.length_append, hlen]
          rfl
        rw [hassoc, ← hl1]
        exact List.drop_left _ _
      rw [hdrop2] at h'
      by_cases hb : (hasRef S (rest0.takeWhile (fun c => !(c = '<'))) &&
          ("</style>").toList.isPrefixOf
            (rest0.dropWhile (fun c => !(c = '<')))) = true
      · rw [if_pos hb] at h'
        obtain ⟨hb1, hb2⟩ := Bool.and_eq_true_iff.mp hb
        obtain ⟨b, hbdef⟩ := List.isPrefixOf_iff_prefix.mp hb2
        have h2 : some (6 + p + 1 + (rest0.takeWhile (fun c => !(c = '<'))).length + 8) =
            some L := h'
        injection h2 with h3
        refine ⟨attrs, rest0.takeWhile (fun c => !(c = '<')), b, ?_, hnomem, ?_, hb1, ?_⟩
        · rw [← hr, hsplit]
          have hparts : rest0 = rest0.takeWhile (fun c => !(c = '<')) ++
              (("</style>").toList ++ b) := by
            rw [hbdef]
            exact (List.takeWhile_append_dropWhile _ _).symm
          rw [show attrs ++ '>' :: rest0 =
              attrs ++ '>' :: (rest0.takeWhile (fun c => !(c = '<')) ++
                (("</style>").toList ++ b)) from by rw [← hparts]]
          simp
        · intro c hc
          have := List.mem_takeWhile_imp hc
          simpa using this
        · omega
      · rw [if_neg hb] at h'
        cases h'
  · rw [if_neg h0] at h
    cases h

theorem noscriptMH_sound {S s : Str} {L : Nat} (h : noscriptMH S s = some L) :
    ∃ attrs run b,
      s = ("<noscript").toList ++ attrs ++ '>' ::
            (run ++ ("</noscript>").toList ++ b) ∧
      ('>' ∉ attrs) ∧
      (∀ c ∈ run, c ≠ '<') ∧
      hasRef S run = true ∧
      L = 21 + attrs.length + run.length := by
  unfold noscriptMH at h
  by_cases h0 : ("<noscript").toList.isPrefixOf s = true
  · rw [if_pos h0] at h
    obtain ⟨r, hr⟩ := List.isPrefixOf_iff_prefix.mp h0
    have h9 : ("<noscript").toList.length = 9 := rfl
    have hdrop : s.drop 9 = r := by
      rw [← hr, ← h9]
      exact List.drop_left _ _
    rw [hdrop] at h
    cases hp : idxOfCh '>' r with
    | none =>
      rw [hp] at h
      cases h
    | some p =>
      rw [hp] at h
      have h' : (if (hasRef S ((r.drop (p + 1)).takeWhile (fun c => !(c = '<'))) &&
            ("</noscript>").toList.isPrefixOf
              ((r.drop (p + 1)).dropWhile (fun c => !(c = '<')))) = true then
          some (9 + p + 1 +
            ((((r.drop (p + 1)).takeWhile (fun c => !(c = '<')))).length) + 11)
        else none) = some L := h
      obtain ⟨attrs, rest0, hsplit, hlen, hnomem⟩ := idxOfCh_split hp
      have hdrop2 : r.drop (p + 1) = rest0 := by
        rw [hsplit]
        have hassoc : attrs ++ '>' :: rest0 = (attrs ++ ['>']) ++ rest0 := by simp
        have hl1 : (attrs ++ ['>']).length = p + 1 := by
          rw [List.length_append, hlen]
          rfl
        rw [hassoc, ← hl1]
        exact List.drop_left _ _
      rw [hdrop2] at h'
      by_cases hb : (hasRef S (rest0.takeWhile (fun c => !(c = '<'))) &&
          ("</noscript>").toList.isPrefixOf
            (rest0.dropWhile (fun c => !(c = '<')))) = true
      · rw [if_pos hb] at h'
        obtain ⟨hb1, hb2⟩ := Bool.and_eq_true_iff.mp hb
        obtain ⟨b, hbdef⟩ := List.isPrefixOf_iff_prefix.mp hb2
        have h2 : some (9 + p + 1 + (rest0.takeWhile (fun c => !(c = '<'))).length + 11) =
            some L := h'
        injection h2 with h3
        refine ⟨attrs, rest0.takeWhile (fun c => !(c = '<')), b, ?_, hnomem, ?_, hb1, ?_⟩
        · rw [← hr, hsplit]
          have hparts : rest0 = rest0.takeWhile (fun c => !(c = '<')) ++
              (("</noscript>").toList ++ b) := by
            rw [hbdef]
            exact (List.takeWhile_append_dropWhile _ _).symm
          rw [show attrs ++ '>' :: rest0 =
              attrs ++ '>' :: (rest0.takeWhile (fun c => !(c = '<')) ++
                (("</noscript>").toList ++ b)) from by rw [← hparts]]
          simp
        · intro c hc
          have := List.mem_takeWhile_imp hc
          simpa using this
        · omega
      · rw [if_neg hb] at h'
        cases h'
  · rw [if_neg h0] at h
    cases h

/-- C6 counterexample: the article pattern anchors on the literal text
`id="slotId"` behind a word boundary anywhere in the attribute region, so a
block carrying `data-id="promo1"` — whose id attribute is absent, not equal
to the slot id — is removed whole: removal does not happen "only when the
block's id attribute equals the slotId exactly". -/
theorem claim6_counterexample :
    remove_slots (("<article data-id=\"promo1\">X</article>").toList)
      [("promo1").toList] = [] := by decide

/-- C6 (corrected): a tag block is removed exactly when its `>`-free attribute
region contains the literal text `id="slotId"` preceded by a non-word
character — so the exact id `promo1` removes the whole block and the strict
prefix `promo` does not, but an attribute such as `data-id="promo1"` also
triggers removal — and a style or noscript block is removed only when its
`<`-free body references `#slotId` immediately followed by whitespace, a
comma or an opening brace. -/
theorem claim6_slot_removal :
    (∀ (S s : Str) (L : Nat), articleMH S s = some L →
      ∃ attrs mid b,
        s = ("<article").toList ++ attrs ++ '>' ::
              (mid ++ ("</article>").toList ++ b) ∧
        ('>' ∉ attrs) ∧ boundedOccFrom (idPat S) 'e' attrs = true ∧
        L = 19 + attrs.length + mid.length) ∧
    (∀ (S s : Str) (L : Nat), styleMH S s = some L →
      ∃ attrs run b,
        s = ("<style").toList ++ attrs ++ '>' :: (run ++ ("</style>").toList ++ b) ∧
        hasRef S run = true) ∧
    (∀ (S s : Str) (L : Nat), noscriptMH S s = some L →
      ∃ attrs run b,
        s = ("<noscript").toList ++ attrs ++ '>' ::
              (run ++ ("</noscript>").toList ++ b) ∧
        hasRef S run = true) ∧
    remove_slots (("<article id=\"promo1\">X</article>").toList)
        [("promo1").toList] = [] ∧
    remove_slots (("<article id=\"promo1\">X</article>").toList)
        [("promo").toList] =
      ("<article id=\"promo1\">X</article>").toList := by
  refine ⟨?_, ?_, ?_, by decide, by decide⟩
  · intro S s L h
    exact articleMH_sound h
  · intro S s L h
    obtain ⟨attrs, run, b, hs, _, _, hr, _⟩ := styleMH_sound h
    exact ⟨attrs, run, b, hs, hr⟩
  · intro S s L h
    obtain ⟨attrs, run, b, hs, _, _, hr, _⟩ := noscriptMH_sound h
    exact ⟨attrs, run, b, hs, hr⟩

/-- C10: the style and noscript removal only ever fires on a block whose body
contains no `<` character: every match's captured run is `<`-free; and
concretely a style block whose body holds a nested tag stays in place even
though it references `#promo` followed by a valid delimiter. -/
theorem claim10_style_body_no_lt :
    (∀ (S s : Str) (L : Nat), styleMH S s = some L →
      ∃ attrs run b,
        s = ("<style").toList ++ attrs ++ '>' :: (run ++ ("</style>").toList ++ b) ∧
        (∀ c ∈ run, c ≠ '<') ∧ hasRef S run = true) ∧
    (∀ (S s : Str) (L : Nat), noscriptMH S s = some L →
      ∃ attrs run b,
        s = ("<noscript").toList ++ attrs ++ '>' ::
              (run ++ ("</noscript>").toList ++ b) ∧
        (∀ c ∈ run, c ≠ '<') ∧ hasRef S run = true) ∧
    remove_slots (("<style>#promo \x7bc:red\x7d<b>x</b></style>").toList)
        [("promo").toList] =
      ("<style>#promo \x7bc:red\x7d<b>x</b></style>").toList := by
  refine ⟨?_, ?_, by decide⟩
  · intro S s L h
    obtain ⟨attrs, run, b, hs, _, hlt, hr, _⟩ := styleMH_sound h
    exact ⟨attrs, run, b, hs, hlt, hr⟩
  · intro S s L h
    obtain ⟨attrs, run, b, hs, _, hlt, hr, _⟩ := noscriptMH_sound h
    exact ⟨attrs, run, b, hs, hlt, hr⟩

/-! ## The orchestrator claims -/

theorem skipRegion_ne_nil {r : Str} (h : skipRegion r = true) : r.isEmpty = false := by
  cases r with
  | nil => exact absurd h (by decide)
  | cons c cs => rfl

/-- C7: with the required inputs present, a non-empty image path and a
readable tagging manifest, a region code starting with the case-sensitive
prefix "SEA" or "AU" makes the orchestrator skip the matcher and Translation
Merger entirely — no translations output is produced — while the filtered
index.json, the tagging.json and the index.html are still written; for any
other region code, and for an absent region file, the translation step runs. -/
theorem claim7_region_skip (fs : Files) (exrows : List (Str × Str)) (ip : Str)
    (srcJson : Table) (html0 : Str)
    (hex : fs.excel = some (some exrows))
    (hip : fs.imagePath = some ip)
    (hipne : (pyStrip ip).isEmpty = false)
    (hsj : fs.sourceJson = some srcJson)
    (hsh : fs.sourceHtml = some html0) :
    (∀ (r : Str) (tm : TagMan), fs.region = some r → fs.tagging = some tm →
      skipRegion (pyStrip r) = true →
      (mainRun fs).translationsOut = none ∧
      (mainRun fs).indexOut = some (filterIndex srcJson (fs.removeSlot.getD [])) ∧
      (mainRun fs).taggingOut =
        some (updateTagging tm (pyStrip r) (fs.removeSlot.getD [])) ∧
      (mainRun fs).htmlOut.isSome = true) ∧
    (∀ (r : Str), fs.region = some r → skipRegion (pyStrip r) = false →
      (mainRun fs).translationsOut = some (process_translations exrows srcJson)) ∧
    (fs.region = none →
      (mainRun fs).translationsOut = some (process_translations exrows srcJson)) := by
  refine ⟨?_, ?_, ?_⟩
  · intro r tm hreg htag hskip
    have hrne : (pyStrip r).isEmpty = false := skipRegion_ne_nil hskip
    simp [mainRun, hex, hip, hsj, hsh, hreg, htag, hipne, hrne, hskip]
  · intro r hreg hskip
    simp [mainRun, hex, hip, hsj, hsh, hreg, hipne, hskip]
  · intro hreg
    simp [mainRun, hex, hip, hsj, hsh, hreg, hipne]

def fs7tbl : Table := [(("a").toList, JVal.vstr (("Hello").toList))]

def fs7tag : TagMan := { pfx := none, slotOrder := some [("s1").toList] }

def fs7 : Files :=
  { excel := some (some [(("Hello").toList, ("Bonjour").toList)]),
    imagePath := some (("img").toList),
    sourceJson := some fs7tbl,
    sourceHtml := some (("<p>x</p>").toList),
    tagging := some fs7tag,
    region := some (("SEA-01").toList),
    removeSlot := none }

/-- C7 witness: a run with region `SEA-01` produces no translations output
but still writes the filtered index.json, the tagging.json and the html. -/
theorem claim7_witness :
    (mainRun fs7).translationsOut = none ∧
    (mainRun fs7).indexOut = some (filterIndex fs7tbl (fs7.removeSlot.getD [])) ∧
    (mainRun fs7).taggingOut =
      some (updateTagging fs7tag (pyStrip (("SEA-01").toList)) (fs7.removeSlot.getD [])) ∧
    (mainRun fs7).htmlOut.isSome = true :=
  (claim7_region_skip fs7 [(("Hello").toList, ("Bonjour").toList)] (("img").toList)
    fs7tbl (("<p>x</p>").toList) rfl rfl (by decide) rfl rfl).1
    (("SEA-01").toList) fs7tag rfl rfl (by decide)

/-- C9 (corrected): when a required input file (spreadsheet, image-path file,
source index.json or source index.html) is missing, the run stops with a
diagnostic before writing any output — but the export directory has already
been cleared (the cleanup precedes the checks), so the files previously
present there are deleted, not left unchanged. -/
theorem claim9_missing_input (fs : Files) (pre : List Str)
    (h : fs.excel = none ∨ fs.imagePath = none ∨ fs.sourceJson = none ∨
      fs.sourceHtml = none) :
    mainRun fs = emptyOut ∧ exportAfter fs pre = [] := by
  have hout : mainRun fs = emptyOut := by
    unfold mainRun
    cases hex : fs.excel with
    | none => rfl
    | some exd =>
      cases hip : fs.imagePath with
      | none => rfl
      | some ip =>
        cases hsj : fs.sourceJson with
        | none => rfl
        | some sj =>
          cases hsh : fs.sourceHtml with
          | none => rfl
          | some sh =>
            exfalso
            rcases h with h | h | h | h
            · rw [hex] at h
              cases h
            · rw [hip] at h
              cases h
            · rw [hsj] at h
              cases h
            · rw [hsh] at h
              cases h
  refine ⟨hout, ?_⟩
  simp [exportAfter, hout, emptyOut]

def fs9 : Files :=
  { excel := none,
    imagePath := some (("img").toList),
    sourceJson := some fs7tbl,
    sourceHtml := some (("<p>x</p>").toList),
    tagging := none,
    region := none,
    removeSlot := none }

/-- C9 witness: with the spreadsheet missing, no output is written and the
export directory ends empty. -/
theorem claim9_witness :
    mainRun fs9 = emptyOut ∧
    exportAfter fs9 [("translations.json").toList] = [] :=
  claim9_missing_input fs9 [("translations.json").toList] (Or.inl rfl)

/-- C9 counterexample: a `translations.json` present in the export directory
before a run whose spreadsheet is missing is NOT left unchanged — the
directory is cleared before the input checks, so the file is gone. -/
theorem claim9_counterexample :
    exportAfter fs9 [("translations.json").toList] ≠
      [("translations.json").toList] := by decide
